import Mathlib

/-!
Verification of the motion-mapping core of the cozmo-homebrew repository.

Two pure numeric functions are embedded over `ℚ`:

* `translate_speed` from `Scripts/rc-wireless-opencv.py` (the arcade-drive
  mapper, with the module constant `max_wheel_speed = 150.0`);
* `_get_motor_thrust` from `test-connection.py` (the throttle/steering
  tank-drive mapper), here `get_motor_thrust`.

Python's float modulo `x % y` (result carrying the sign of the divisor,
`x - y * floor (x / y)`) is embedded as `pmod`.
-/

/-- Python's `%` on reals with positive divisor: `x - y * ⌊x / y⌋`. -/
def pmod (x y : ℚ) : ℚ := x - y * (⌊x / y⌋ : ℤ)

/-- Module constant `max_wheel_speed = 150.0` in `Scripts/rc-wireless-opencv.py`. -/
def max_wheel_speed : ℚ := 150

/-- `translate_speed(fwd, turn)` from `Scripts/rc-wireless-opencv.py`:
maps a forward speed and a turn speed (nominally each in [-1, 1]) to
left/right wheel speeds. -/
def translate_speed (fwd turn : ℚ) : ℚ × ℚ :=
  if fwd = 0 ∧ turn = 0 then (0, 0)
  else if fwd = 0 then (turn * max_wheel_speed, -turn * max_wheel_speed)
  else if turn = 0 then (fwd * max_wheel_speed, fwd * max_wheel_speed)
  else (fwd * max_wheel_speed + turn * max_wheel_speed / 2,
        fwd * max_wheel_speed - turn * max_wheel_speed / 2)

/-- The normalization step `theta = ((theta + 180.0) % 360.0) - 180.0`
of `_get_motor_thrust`. -/
def normalizeTheta (theta : ℚ) : ℚ := pmod (theta + 180) 360 - 180

/-- The clamping step `r = min(max(0.0, r), 100.0)` of `_get_motor_thrust`. -/
def clampThrottle (r : ℚ) : ℚ := min (max 0 r) 100

/-- The intermediate `v_a = r * (45.0 - theta % 90.0) / 45.0` of
`_get_motor_thrust`, as a function of the already clamped throttle and the
already normalized angle. -/
def v_a (r theta : ℚ) : ℚ := r * (45 - pmod theta 90) / 45

/-- The intermediate `v_b = min(100.0, 2.0 * r + v_a, 2.0 * r - v_a)` of
`_get_motor_thrust`. -/
def v_b (r theta : ℚ) : ℚ :=
  min 100 (min (2 * r + v_a r theta) (2 * r - v_a r theta))

/-- `_get_motor_thrust(r, theta)` from `test-connection.py`: converts a
throttle percentage and a steering angle in degrees to left/right motor
thrust percentages. -/
def get_motor_thrust (r theta : ℚ) : ℚ × ℚ :=
  if normalizeTheta theta < -90 then
    (-(v_b (clampThrottle r) (normalizeTheta theta)),
     -(v_a (clampThrottle r) (normalizeTheta theta)))
  else if normalizeTheta theta < 0 then
    (-(v_a (clampThrottle r) (normalizeTheta theta)),
     v_b (clampThrottle r) (normalizeTheta theta))
  else if normalizeTheta theta < 90 then
    (v_b (clampThrottle r) (normalizeTheta theta),
     v_a (clampThrottle r) (normalizeTheta theta))
  else
    (v_a (clampThrottle r) (normalizeTheta theta),
     -(v_b (clampThrottle r) (normalizeTheta theta)))

/-- The spec's four-case reference algorithm for the arcade-drive mapper,
written from its words (section 4.1): case split on which inputs are zero,
with `avg = forward * max_speed` and `turn_component = turn * max_speed / 2`
in the blended case. -/
def arcade_ref (forward turn max_speed : ℚ) : ℚ × ℚ :=
  if forward = 0 ∧ turn = 0 then (0, 0)
  else if forward = 0 then (turn * max_speed, -(turn * max_speed))
  else if turn = 0 then (forward * max_speed, forward * max_speed)
  else (forward * max_speed + turn * max_speed / 2,
        forward * max_speed - turn * max_speed / 2)

section PmodLemmas

/-- For a positive divisor, `pmod` lands in `[0, y)`. -/
theorem pmod_bounds (x y : ℚ) (hy : 0 < y) : 0 ≤ pmod x y ∧ pmod x y < y := by
  have h1 : ((⌊x / y⌋ : ℤ) : ℚ) ≤ x / y := Int.floor_le _
  have h2 : x / y < (⌊x / y⌋ : ℤ) + 1 := Int.lt_floor_add_one _
  have hx : x / y * y = x := div_mul_cancel₀ x (ne_of_gt hy)
  have h1' : ((⌊x / y⌋ : ℤ) : ℚ) * y ≤ x / y * y :=
    mul_le_mul_of_nonneg_right h1 (le_of_lt hy)
  have h2' : x / y * y < (((⌊x / y⌋ : ℤ) : ℚ) + 1) * y :=
    mul_lt_mul_of_pos_right h2 hy
  unfold pmod
  constructor <;> nlinarith [h1', h2', hx]

/-- `pmod` with arguments already in `[0, y)` is the identity. -/
theorem pmod_eq_self (x y : ℚ) (h0 : 0 ≤ x) (h1 : x < y) : pmod x y = x := by
  have hy : 0 < y := lt_of_le_of_lt h0 h1
  have hfl : ⌊x / y⌋ = 0 := by
    rw [Int.floor_eq_zero_iff]
    constructor
    · exact div_nonneg h0 (le_of_lt hy)
    · exact (div_lt_one hy).mpr h1
  unfold pmod
  rw [hfl]
  push_cast
  ring

/-- `pmod` on `[-y, 0)` adds one period. -/
theorem pmod_neg_eq (x y : ℚ) (hy : 0 < y) (h0 : -y ≤ x) (h1 : x < 0) :
    pmod x y = x + y := by
  have hfl : ⌊x / y⌋ = -1 := by
    rw [Int.floor_eq_iff]
    constructor
    · push_cast
      rw [neg_le, ← neg_div]
      exact (div_le_one hy).mpr (by linarith)
    · push_cast
      norm_num
      exact div_neg_of_neg_of_pos h1 hy
  unfold pmod
  rw [hfl]
  push_cast
  ring

/-- Adding one full period to the dividend leaves `pmod` unchanged. -/
theorem pmod_add_period (x y : ℚ) (hy : y ≠ 0) : pmod (x + y) y = pmod x y := by
  have hdiv : (x + y) / y = x / y + 1 := by
    field_simp
  have hfl : ⌊(x + y) / y⌋ = ⌊x / y⌋ + 1 := by
    rw [hdiv, Int.floor_add_one]
  unfold pmod
  rw [hfl]
  push_cast
  ring

end PmodLemmas

section BoundLemmas

/-- The clamped throttle always lies in `[0, 100]`. -/
theorem clampThrottle_bounds (r : ℚ) :
    0 ≤ clampThrottle r ∧ clampThrottle r ≤ 100 := by
  unfold clampThrottle
  constructor
  · exact le_min (le_max_left 0 r) (by norm_num)
  · exact min_le_right _ _

/-- The normalized angle always lies in `[-180, 180)`. -/
theorem normalizeTheta_bounds (theta : ℚ) :
    -180 ≤ normalizeTheta theta ∧ normalizeTheta theta < 180 := by
  have h := pmod_bounds (theta + 180) 360 (by norm_num)
  unfold normalizeTheta
  constructor <;> linarith [h.1, h.2]

/-- For a nonnegative throttle, `|v_a| ≤ r`. -/
theorem abs_v_a_le (r theta : ℚ) (hr : 0 ≤ r) : |v_a r theta| ≤ r := by
  have h := pmod_bounds theta 90 (by norm_num)
  unfold v_a
  rw [abs_le]
  constructor <;> nlinarith [h.1, h.2, hr]

/-- For a throttle in `[0, 100]`, `v_b` dominates `|v_a|` and lies in
`[0, 100]`. -/
theorem v_b_bounds (r theta : ℚ) (hr0 : 0 ≤ r) (hr1 : r ≤ 100) :
    |v_a r theta| ≤ v_b r theta ∧ 0 ≤ v_b r theta ∧ v_b r theta ≤ 100 := by
  have ha := abs_v_a_le r theta hr0
  have ha' := abs_le.mp ha
  have h1 : |v_a r theta| ≤ v_b r theta := by
    unfold v_b
    refine le_min (by linarith [abs_nonneg (v_a r theta)]) (le_min ?_ ?_)
    · rcases abs_cases (v_a r theta) with ⟨he, _⟩ | ⟨he, _⟩ <;> linarith
    · rcases abs_cases (v_a r theta) with ⟨he, _⟩ | ⟨he, _⟩ <;> linarith
  refine ⟨h1, le_trans (abs_nonneg _) h1, ?_⟩
  unfold v_b
  exact min_le_left _ _

end BoundLemmas

/-- A normalized angle already in `[-180, 180)` is left unchanged. -/
theorem normalizeTheta_eq_self (theta : ℚ) (h0 : -180 ≤ theta) (h1 : theta < 180) :
    normalizeTheta theta = theta := by
  unfold normalizeTheta
  rw [pmod_eq_self _ _ (by linarith) (by linarith)]
  ring

/-- C1: the claim that for all forward and turn in [-1, 1] both components of
`translate_speed` lie within `[-max_wheel_speed, max_wheel_speed]` fails on
the code: at `fwd = 1, turn = 1` the blended branch returns `(225, 75)`, and
`225 > 150`, contradicting the function's own documentation comment. -/
theorem C1_translate_speed_bound_violated :
    translate_speed 1 1 = (225, 75) ∧ ¬ (translate_speed 1 1).1 ≤ max_wheel_speed := by
  constructor <;> norm_num [translate_speed, max_wheel_speed]

/-- C2: for every throttle in `[0, 100]` and every angle, both components of
`get_motor_thrust` lie in `[-100, 100]`. -/
theorem C2_thrust_within_bounds (r theta : ℚ) (hr0 : 0 ≤ r) (hr1 : r ≤ 100) :
    (-100 ≤ (get_motor_thrust r theta).1 ∧ (get_motor_thrust r theta).1 ≤ 100) ∧
    (-100 ≤ (get_motor_thrust r theta).2 ∧ (get_motor_thrust r theta).2 ≤ 100) := by
  have hc := clampThrottle_bounds r
  have hv := v_b_bounds (clampThrottle r) (normalizeTheta theta) hc.1 hc.2
  have ha := abs_le.mp (abs_v_a_le (clampThrottle r) (normalizeTheta theta) hc.1)
  have hb := abs_le.mp hv.1
  unfold get_motor_thrust
  split_ifs <;> refine ⟨⟨?_, ?_⟩, ⟨?_, ?_⟩⟩ <;> dsimp only <;>
    linarith [hv.2.1, hv.2.2, hc.2, ha.1, ha.2, hb.1, hb.2]

/-- Witness for C2 at `r = 50`, `theta = 30`. -/
theorem C2_thrust_within_bounds_witness :
    (-100 ≤ (get_motor_thrust 50 30).1 ∧ (get_motor_thrust 50 30).1 ≤ 100) ∧
    (-100 ≤ (get_motor_thrust 50 30).2 ∧ (get_motor_thrust 50 30).2 ≤ 100) :=
  C2_thrust_within_bounds 50 30 (by norm_num) (by norm_num)

/-- C3 counterexample: at `steer_angle_degrees = 180` the normalization step
yields `-180`, which is not in the claimed half-open interval `(-180, 180]`. -/
theorem C3_normalization_hits_neg180 :
    normalizeTheta 180 = -180 ∧ ¬ (-180 < normalizeTheta 180) := by
  have h0 : pmod (0:ℚ) 360 = 0 := pmod_eq_self 0 360 le_rfl (by norm_num)
  have h := pmod_add_period 0 360 (by norm_num)
  rw [h0] at h
  rw [show ((0:ℚ) + 360) = 360 by norm_num] at h
  constructor
  · unfold normalizeTheta
    rw [show ((180:ℚ) + 180) = 360 by norm_num, h]
    norm_num
  · unfold normalizeTheta
    rw [show ((180:ℚ) + 180) = 360 by norm_num, h]
    norm_num

/-- C3 amended: the angle-normalization step maps every real angle into the
half-open interval `[-180, 180)` (closed on the left, open on the right),
so the theta used by the subsequent steps satisfies `-180 ≤ theta < 180`. -/
theorem C3_normalization_range (theta : ℚ) :
    -180 ≤ normalizeTheta theta ∧ normalizeTheta theta < 180 :=
  normalizeTheta_bounds theta

/-- C4: `translate_speed` computes exactly the spec's four-case reference
algorithm with `max_speed = max_wheel_speed = 150`, and in particular maps
`(1,0) ↦ (150,150)`, `(-1,0) ↦ (-150,-150)`, `(0,1) ↦ (150,-150)`,
`(0,-1) ↦ (-150,150)`. -/
theorem C4_translate_speed_matches_reference :
    (∀ fwd turn : ℚ, translate_speed fwd turn = arcade_ref fwd turn max_wheel_speed) ∧
    translate_speed 1 0 = (150, 150) ∧
    translate_speed (-1) 0 = (-150, -150) ∧
    translate_speed 0 1 = (150, -150) ∧
    translate_speed 0 (-1) = (-150, 150) := by
  refine ⟨fun fwd turn => ?_, ?_, ?_, ?_, ?_⟩
  · unfold translate_speed arcade_ref
    split_ifs <;> simp [neg_mul]
  all_goals norm_num [translate_speed, max_wheel_speed]

/-- C6: zero input yields exactly zero output: `translate_speed 0 0 = (0, 0)`,
and `get_motor_thrust 0 theta = (0, 0)` for every angle, with no residual. -/
theorem C6_zero_in_zero_out :
    translate_speed 0 0 = (0, 0) ∧
    ∀ theta : ℚ, get_motor_thrust 0 theta = (0, 0) := by
  have hr : clampThrottle 0 = 0 := by norm_num [clampThrottle]
  have hva : ∀ x : ℚ, v_a 0 x = 0 := by intro x; simp [v_a]
  have hvb : ∀ x : ℚ, v_b 0 x = 0 := by intro x; simp [v_b, hva]
  constructor
  · norm_num [translate_speed]
  · intro theta
    unfold get_motor_thrust
    rw [hr]
    split_ifs <;> simp [hva, hvb]

/-- C8: angle periodicity: `get_motor_thrust r theta` equals
`get_motor_thrust r (theta + 360)` for every throttle and every angle. -/
theorem C8_angle_periodicity (r theta : ℚ) :
    get_motor_thrust r theta = get_motor_thrust r (theta + 360) := by
  have h : normalizeTheta (theta + 360) = normalizeTheta theta := by
    unfold normalizeTheta
    rw [show theta + 360 + 180 = (theta + 180) + 360 by ring,
        pmod_add_period _ _ (by norm_num)]
  unfold get_motor_thrust
  rw [h]

/-- C5: `get_motor_thrust` computes exactly the spec's step sequence: on the
clamped throttle and normalized angle, `v_a = r * (45 - theta mod 90) / 45`
lies in `[-r, r]`, `v_b = min 100 (min (2r + v_a) (2r - v_a))`, and the result
is assigned by the quadrant of the normalized theta. -/
theorem C5_thrust_algorithm (r theta : ℚ) :
    (-(clampThrottle r) ≤ v_a (clampThrottle r) (normalizeTheta theta) ∧
     v_a (clampThrottle r) (normalizeTheta theta) ≤ clampThrottle r) ∧
    v_a (clampThrottle r) (normalizeTheta theta) =
      clampThrottle r * (45 - pmod (normalizeTheta theta) 90) / 45 ∧
    v_b (clampThrottle r) (normalizeTheta theta) =
      min 100 (min (2 * clampThrottle r + v_a (clampThrottle r) (normalizeTheta theta))
        (2 * clampThrottle r - v_a (clampThrottle r) (normalizeTheta theta))) ∧
    get_motor_thrust r theta =
      (if normalizeTheta theta < -90 then
        (-(v_b (clampThrottle r) (normalizeTheta theta)),
         -(v_a (clampThrottle r) (normalizeTheta theta)))
      else if normalizeTheta theta < 0 then
        (-(v_a (clampThrottle r) (normalizeTheta theta)),
         v_b (clampThrottle r) (normalizeTheta theta))
      else if normalizeTheta theta < 90 then
        (v_b (clampThrottle r) (normalizeTheta theta),
         v_a (clampThrottle r) (normalizeTheta theta))
      else
        (v_a (clampThrottle r) (normalizeTheta theta),
         -(v_b (clampThrottle r) (normalizeTheta theta)))) := by
  have hc := clampThrottle_bounds r
  have ha := abs_le.mp (abs_v_a_le (clampThrottle r) (normalizeTheta theta) hc.1)
  exact ⟨⟨ha.1, ha.2⟩, rfl, rfl, rfl⟩

/-- C9: totality: the clamped throttle and normalized angle are in range
before any use, and both mappers are exhaustive total case splits — every
input lands in exactly one of the enumerated result forms. -/
theorem C9_totality (fwd turn r theta : ℚ) :
    (0 ≤ clampThrottle r ∧ clampThrottle r ≤ 100) ∧
    (-180 ≤ normalizeTheta theta ∧ normalizeTheta theta < 180) ∧
    (translate_speed fwd turn = (0, 0) ∨
     translate_speed fwd turn = (turn * max_wheel_speed, -turn * max_wheel_speed) ∨
     translate_speed fwd turn = (fwd * max_wheel_speed, fwd * max_wheel_speed) ∨
     translate_speed fwd turn = (fwd * max_wheel_speed + turn * max_wheel_speed / 2,
        fwd * max_wheel_speed - turn * max_wheel_speed / 2)) ∧
    (get_motor_thrust r theta = (-(v_b (clampThrottle r) (normalizeTheta theta)),
        -(v_a (clampThrottle r) (normalizeTheta theta))) ∨
     get_motor_thrust r theta = (-(v_a (clampThrottle r) (normalizeTheta theta)),
        v_b (clampThrottle r) (normalizeTheta theta)) ∨
     get_motor_thrust r theta = (v_b (clampThrottle r) (normalizeTheta theta),
        v_a (clampThrottle r) (normalizeTheta theta)) ∨
     get_motor_thrust r theta = (v_a (clampThrottle r) (normalizeTheta theta),
        -(v_b (clampThrottle r) (normalizeTheta theta)))) := by
  refine ⟨clampThrottle_bounds r, normalizeTheta_bounds theta, ?_, ?_⟩
  · unfold translate_speed
    split_ifs
    · exact Or.inl rfl
    · exact Or.inr (Or.inl rfl)
    · exact Or.inr (Or.inr (Or.inl rfl))
    · exact Or.inr (Or.inr (Or.inr rfl))
  · unfold get_motor_thrust
    split_ifs
    · exact Or.inl rfl
    · exact Or.inr (Or.inl rfl)
    · exact Or.inr (Or.inr (Or.inl rfl))
    · exact Or.inr (Or.inr (Or.inr rfl))

/-- C10: outer-wheel dominance: for every input, `v_b` lies in `[0, 100]`
and dominates `|v_a|`, and the returned pair always has absolute values
`{v_b, |v_a|}` with `v_b` in the outer position — so the outer wheel is
never slower in magnitude than the inner wheel. -/
theorem C10_outer_wheel_dominance (r theta : ℚ) :
    (0 ≤ v_b (clampThrottle r) (normalizeTheta theta) ∧
     v_b (clampThrottle r) (normalizeTheta theta) ≤ 100 ∧
     |v_a (clampThrottle r) (normalizeTheta theta)| ≤
       v_b (clampThrottle r) (normalizeTheta theta)) ∧
    ((|(get_motor_thrust r theta).1| = v_b (clampThrottle r) (normalizeTheta theta) ∧
      |(get_motor_thrust r theta).2| = |v_a (clampThrottle r) (normalizeTheta theta)|) ∨
     (|(get_motor_thrust r theta).1| = |v_a (clampThrottle r) (normalizeTheta theta)| ∧
      |(get_motor_thrust r theta).2| = v_b (clampThrottle r) (normalizeTheta theta))) ∧
    min |(get_motor_thrust r theta).1| |(get_motor_thrust r theta).2| =
      |v_a (clampThrottle r) (normalizeTheta theta)| ∧
    max |(get_motor_thrust r theta).1| |(get_motor_thrust r theta).2| =
      v_b (clampThrottle r) (normalizeTheta theta) := by
  have hc := clampThrottle_bounds r
  have hv := v_b_bounds (clampThrottle r) (normalizeTheta theta) hc.1 hc.2
  have hb : |v_b (clampThrottle r) (normalizeTheta theta)| =
      v_b (clampThrottle r) (normalizeTheta theta) := abs_of_nonneg hv.2.1
  refine ⟨⟨hv.2.1, hv.2.2, hv.1⟩, ?_, ?_, ?_⟩ <;>
    unfold get_motor_thrust <;> split_ifs <;> dsimp only <;>
    simp only [abs_neg, hb] <;>
    first
      | exact Or.inl ⟨trivial, trivial⟩
      | exact Or.inr ⟨trivial, trivial⟩
      | exact min_eq_right hv.1
      | exact min_eq_left hv.1
      | exact max_eq_left hv.1
      | exact max_eq_right hv.1

section MirrorSymmetry

/-- `pmod` values of the mirrored representative angles differ by sign in the
`45 - pmod theta 90` term: `v_a` at the negated angle is the negation of
`v_a` at the angle, for each angle in {30, 60, 120, 150}. -/
theorem v_a_mirror (r : ℚ) :
    v_a r (-30) = -(v_a r 30) ∧ v_a r (-60) = -(v_a r 60) ∧
    v_a r (-120) = -(v_a r 120) ∧ v_a r (-150) = -(v_a r 150) := by
  have h30 : pmod (30:ℚ) 90 = 30 := pmod_eq_self _ _ (by norm_num) (by norm_num)
  have h60 : pmod (60:ℚ) 90 = 60 := pmod_eq_self _ _ (by norm_num) (by norm_num)
  have hn30 : pmod (-30:ℚ) 90 = 60 := by
    have h := pmod_neg_eq (-30) 90 (by norm_num) (by norm_num) (by norm_num)
    linarith
  have hn60 : pmod (-60:ℚ) 90 = 30 := by
    have h := pmod_neg_eq (-60) 90 (by norm_num) (by norm_num) (by norm_num)
    linarith
  have h120 : pmod (120:ℚ) 90 = 30 := by
    have h := pmod_add_period 30 90 (by norm_num)
    rw [show ((30:ℚ) + 90) = 120 by norm_num] at h
    rw [h30] at h
    exact h
  have h150 : pmod (150:ℚ) 90 = 60 := by
    have h := pmod_add_period 60 90 (by norm_num)
    rw [show ((60:ℚ) + 90) = 150 by norm_num] at h
    rw [h60] at h
    exact h
  have hn120 : pmod (-120:ℚ) 90 = 60 := by
    have h := pmod_add_period (-120) 90 (by norm_num)
    rw [show ((-120:ℚ) + 90) = -30 by norm_num] at h
    rw [hn30] at h
    exact h.symm
  have hn150 : pmod (-150:ℚ) 90 = 30 := by
    have h := pmod_add_period (-150) 90 (by norm_num)
    rw [show ((-150:ℚ) + 90) = -60 by norm_num] at h
    rw [hn60] at h
    exact h.symm
  refine ⟨?_, ?_, ?_, ?_⟩ <;> unfold v_a
  · rw [h30, hn30]; ring
  · rw [h60, hn60]; ring
  · rw [h120, hn120]; ring
  · rw [h150, hn150]; ring

/-- When `v_a` at one angle is the negation of `v_a` at another, `v_b` agrees
at the two angles (the two `min` arms swap). -/
theorem v_b_of_neg_v_a (r t1 t2 : ℚ) (h : v_a r t1 = -(v_a r t2)) :
    v_b r t1 = v_b r t2 := by
  unfold v_b
  rw [h, show 2 * r + -(v_a r t2) = 2 * r - v_a r t2 by ring,
      show 2 * r - -(v_a r t2) = 2 * r + v_a r t2 by ring,
      min_comm (2 * r - v_a r t2) (2 * r + v_a r t2)]

/-- C7: steering mirror symmetry: for every throttle `t` and each
representative angle in {30, 60, 120, 150}, `get_motor_thrust t (-angle)`
is `get_motor_thrust t angle` with its components swapped. -/
theorem C7_mirror_symmetry (t : ℚ) :
    get_motor_thrust t (-30) = Prod.swap (get_motor_thrust t 30) ∧
    get_motor_thrust t (-60) = Prod.swap (get_motor_thrust t 60) ∧
    get_motor_thrust t (-120) = Prod.swap (get_motor_thrust t 120) ∧
    get_motor_thrust t (-150) = Prod.swap (get_motor_thrust t 150) := by
  have hva := v_a_mirror (clampThrottle t)
  have hvb1 := v_b_of_neg_v_a (clampThrottle t) (-30) 30 hva.1
  have hvb2 := v_b_of_neg_v_a (clampThrottle t) (-60) 60 hva.2.1
  have hvb3 := v_b_of_neg_v_a (clampThrottle t) (-120) 120 hva.2.2.1
  have hvb4 := v_b_of_neg_v_a (clampThrottle t) (-150) 150 hva.2.2.2
  have e1 : normalizeTheta (30:ℚ) = 30 :=
    normalizeTheta_eq_self _ (by norm_num) (by norm_num)
  have e2 : normalizeTheta (-30:ℚ) = -30 :=
    normalizeTheta_eq_self _ (by norm_num) (by norm_num)
  have e3 : normalizeTheta (60:ℚ) = 60 :=
    normalizeTheta_eq_self _ (by norm_num) (by norm_num)
  have e4 : normalizeTheta (-60:ℚ) = -60 :=
    normalizeTheta_eq_self _ (by norm_num) (by norm_num)
  have e5 : normalizeTheta (120:ℚ) = 120 :=
    normalizeTheta_eq_self _ (by norm_num) (by norm_num)
  have e6 : normalizeTheta (-120:ℚ) = -120 :=
    normalizeTheta_eq_self _ (by norm_num) (by norm_num)
  have e7 : normalizeTheta (150:ℚ) = 150 :=
    normalizeTheta_eq_self _ (by norm_num) (by norm_num)
  have e8 : normalizeTheta (-150:ℚ) = -150 :=
    normalizeTheta_eq_self _ (by norm_num) (by norm_num)
  refine ⟨?_, ?_, ?_, ?_⟩ <;> unfold get_motor_thrust
  · rw [e1, e2]
    norm_num
    rw [hva.1, hvb1]
    simp [Prod.swap]
  · rw [e3, e4]
    norm_num
    rw [hva.2.1, hvb2]
    simp [Prod.swap]
  · rw [e5, e6]
    norm_num
    rw [hva.2.2.1, hvb3]
    simp [Prod.swap]
  · rw [e7, e8]
    norm_num
    rw [hva.2.2.2, hvb4]
    simp [Prod.swap]

end MirrorSymmetry
